import Mathlib

/-!
Verification of the sparse Merkle tree core of fuel-vm-blake3.

The development shallowly embeds:
  * the BLAKE3-256 hash primitive (single-chunk inputs; every concrete input
    hashed in this repository is at most 69 bytes),
  * the hashing helpers of `fuel-merkle/src/common/hash.rs`,
    `fuel-merkle/src/binary/hash.rs`, `fuel-merkle/src/common.rs` and
    `fuel-merkle/test-helpers/src/binary/hash.rs`,
  * the sparse Merkle tree engine and bulk constructor.  The engine source
    (`sparse/merkle_tree.rs`) is not part of the provided sources; the
    definitions below that carry a `Modelled from the spec:` doc comment are
    taken from the specification (sections 4.5 and 4.6), while the wrapper
    `in_memory.rs` (which is provided) is translated directly.

Bytes are `Nat` values below 256; byte strings are `List Nat`; 32-byte digests
are `List Nat` of length 32; machine words are `Nat` reduced modulo `2 ^ 32`.
-/

namespace Blake3

/-- Reduce a natural number to a 32-bit word. -/
def u32 (x : Nat) : Nat := x % 4294967296

/-- Right rotation of a 32-bit word by `n` bits. -/
def rotr (x n : Nat) : Nat := u32 ((x >>> n) ||| (x <<< (32 - n)))

/-- The BLAKE3 initialisation vector (the first eight SHA-256 constants). -/
def IV : List Nat :=
  [0x6A09E667, 0xBB67AE85, 0x3C6EF372, 0xA54FF53A,
   0x510E527F, 0x9B05688C, 0x1F83D9AB, 0x5BE0CD19]

/-- Read word `i` of a state or message vector (missing entries read as 0,
which also realises the zero padding of a short final block). -/
def w (st : List Nat) (i : Nat) : Nat := st.getD i 0

/-- The BLAKE3 quarter-round `G` acting on state indices `a b c d` with
message words `mx my`. -/
def g (st : List Nat) (a b c d mx my : Nat) : List Nat :=
  let va := u32 (w st a + w st b + mx)
  let vd := rotr ((w st d) ^^^ va) 16
  let vc := u32 (w st c + vd)
  let vb := rotr ((w st b) ^^^ vc) 12
  let va2 := u32 (va + vb + my)
  let vd2 := rotr (vd ^^^ va2) 8
  let vc2 := u32 (vc + vd2)
  let vb2 := rotr (vb ^^^ vc2) 7
  ((((st.set a va2).set b vb2).set c vc2).set d vd2)

/-- One BLAKE3 round: four column steps followed by four diagonal steps. -/
def roundFn (st m : List Nat) : List Nat :=
  let s1 := g st 0 4 8 12 (w m 0) (w m 1)
  let s2 := g s1 1 5 9 13 (w m 2) (w m 3)
  let s3 := g s2 2 6 10 14 (w m 4) (w m 5)
  let s4 := g s3 3 7 11 15 (w m 6) (w m 7)
  let s5 := g s4 0 5 10 15 (w m 8) (w m 9)
  let s6 := g s5 1 6 11 12 (w m 10) (w m 11)
  let s7 := g s6 2 7 8 13 (w m 12) (w m 13)
  g s7 3 4 9 14 (w m 14) (w m 15)

/-- The BLAKE3 message permutation, applied between rounds. -/
def permuteMsg (m : List Nat) : List Nat :=
  [w m 2, w m 6, w m 3, w m 10, w m 7, w m 0, w m 4, w m 13,
   w m 1, w m 11, w m 12, w m 5, w m 9, w m 14, w m 15, w m 8]

/-- Iterate `n` rounds, permuting the message schedule after each round. -/
def rounds : Nat → List Nat → List Nat → List Nat
  | 0, st, _ => st
  | n + 1, st, m => rounds n (roundFn st m) (permuteMsg m)

/-- The BLAKE3 compression function; returns the eight-word chaining value. -/
def compress (cv m : List Nat) (counter blockLen flags : Nat) : List Nat :=
  let st := cv ++ IV.take 4 ++ [u32 counter, counter >>> 32, blockLen, flags]
  let v := rounds 7 st m
  [(w v 0) ^^^ (w v 8), (w v 1) ^^^ (w v 9), (w v 2) ^^^ (w v 10),
   (w v 3) ^^^ (w v 11), (w v 4) ^^^ (w v 12), (w v 5) ^^^ (w v 13),
   (w v 6) ^^^ (w v 14), (w v 7) ^^^ (w v 15)]

/-- Little-endian packing of a byte string into 32-bit words. -/
def wordsOfBytes : List Nat → List Nat
  | [] => []
  | [a] => [a]
  | [a, b] => [a + 256 * b]
  | [a, b, c] => [a + 256 * b + 65536 * c]
  | a :: b :: c :: d :: rest =>
    (a + 256 * b + 65536 * c + 16777216 * d) :: wordsOfBytes rest

/-- Split a byte string into 64-byte blocks (the fuel argument makes the
recursion structural; it is always called with more fuel than blocks). -/
def splitBlocks : Nat → List Nat → List (List Nat)
  | 0, _ => []
  | fuel + 1, bytes =>
    if bytes.length ≤ 64 then [bytes]
    else bytes.take 64 :: splitBlocks fuel (bytes.drop 64)

/-- Flag constants: `CHUNK_START = 1`, `CHUNK_END = 2`, `ROOT = 8`. -/
def startFlag (isFirst : Bool) : Nat := if isFirst then 1 else 0

/-- Fold the blocks of the (single, root) chunk through the compression
function.  The final block carries `CHUNK_END ||| ROOT`. -/
def chunkCV : List Nat → List (List Nat) → Bool → List Nat
  | cv, [], _ => cv
  | cv, [b], isFirst =>
    compress cv (wordsOfBytes b) 0 b.length (startFlag isFirst + 2 + 8)
  | cv, b :: b2 :: rest, isFirst =>
    chunkCV (compress cv (wordsOfBytes b) 0 b.length (startFlag isFirst))
      (b2 :: rest) false

/-- Little-endian serialisation of one 32-bit word. -/
def bytesOfWord (x : Nat) : List Nat :=
  [x % 256, x / 256 % 256, x / 65536 % 256, x / 16777216 % 256]

/-- BLAKE3-256 of a byte string (exact for inputs of at most one 1024-byte
chunk, which covers every concrete input hashed in this repository). -/
def hashBytes (input : List Nat) : List Nat :=
  let blocks := if input.isEmpty then [[]] else splitBlocks (input.length + 1) input
  let cv := chunkCV IV blocks true
  (cv.map bytesOfWord).flatten

end Blake3

/-! ## Hashing helpers, translated from the provided sources -/

namespace FuelMerkle

/-- A 32-byte digest or storage key (`Bytes32` in `common.rs`). -/
abbrev Bytes32 := List Nat

/-- `common/hash.rs`: `sum(data) = blake3::hash(data)`. -/
def sum (data : List Nat) : Bytes32 := Blake3.hashBytes data

/-- Model of `blake3::Hasher`: `update` accumulates input bytes and
`finalize` hashes the accumulated byte string, exactly the semantics of the
incremental BLAKE3 API. -/
structure Hasher where
  acc : List Nat

/-- `blake3::Hasher::new()`. -/
def Hasher.new : Hasher := ⟨[]⟩

/-- `blake3::Hasher::update`. -/
def Hasher.update (h : Hasher) (data : List Nat) : Hasher := ⟨h.acc ++ data⟩

/-- `blake3::Hasher::finalize`. -/
def Hasher.finalize (h : Hasher) : Bytes32 := Blake3.hashBytes h.acc

/-- The leaf domain-separation octet (`Prefix::Leaf`, `LEAF = 0x00`). -/
def leafPrefixByte : Nat := 0

/-- The internal-node domain-separation octet (`Prefix::Node`, `NODE = 0x01`). -/
def nodePrefixByte : Nat := 1

/-- `binary/hash.rs`: `node_sum(lhs, rhs)` hashes the node octet, then the
left digest, then the right digest through an incremental hasher. -/
def node_sum (lhs rhs : Bytes32) : Bytes32 :=
  (((Hasher.new.update [nodePrefixByte]).update lhs).update rhs).finalize

/-- `binary/hash.rs`: `leaf_sum(data)` hashes the leaf octet then the data
through an incremental hasher. -/
def leaf_sum (data : List Nat) : Bytes32 :=
  ((Hasher.new.update [leafPrefixByte]).update data).finalize

/-- `common.rs`: the hard-coded `EMPTY_SUM` constant returned by
`empty_sum_blake3()`. -/
def empty_sum_blake3 : Bytes32 :=
  [0xaf, 0x13, 0x49, 0xb9, 0xf5, 0xf9, 0xa1, 0xa6, 0xa0, 0x40, 0x4d, 0xea, 0x36,
   0xdc, 0xc9, 0x49, 0x9b, 0xcb, 0x25, 0xc9, 0xad, 0xc1, 0x12, 0xb7, 0xcc, 0x9a,
   0x93, 0xca, 0xe4, 0x1f, 0x32, 0x62]

/-- `binary/hash.rs`: `empty_sum()` forwards to `empty_sum_blake3()`. -/
def binary_empty_sum : Bytes32 := empty_sum_blake3

/-- `test-helpers/src/binary/hash.rs`: its `empty_sum()` duplicates the same
constant byte for byte. -/
def test_helpers_empty_sum : Bytes32 :=
  [0xaf, 0x13, 0x49, 0xb9, 0xf5, 0xf9, 0xa1, 0xa6, 0xa0, 0x40, 0x4d, 0xea, 0x36,
   0xdc, 0xc9, 0x49, 0x9b, 0xcb, 0x25, 0xc9, 0xad, 0xc1, 0x12, 0xb7, 0xcc, 0x9a,
   0x93, 0xca, 0xe4, 0x1f, 0x32, 0x62]

/-- `test-helpers/src/binary/hash.rs`: its `node_sum` (same shape, byte-slice
arguments). -/
def test_helpers_node_sum (lhs rhs : List Nat) : Bytes32 :=
  (((Hasher.new.update [nodePrefixByte]).update lhs).update rhs).finalize

/-- `test-helpers/src/binary/hash.rs`: its `leaf_sum`. -/
def test_helpers_leaf_sum (data : List Nat) : Bytes32 :=
  ((Hasher.new.update [leafPrefixByte]).update data).finalize

/-! ## Keys as bit paths -/

/-- The bits of one byte, most significant first (key paths run from the MSB
of byte 0 down to the LSB of byte 31). -/
def byteToBits (b : Nat) : List Bool :=
  [b.testBit 7, b.testBit 6, b.testBit 5, b.testBit 4,
   b.testBit 3, b.testBit 2, b.testBit 1, b.testBit 0]

/-- A byte string as its MSB-first bit path. -/
def bytesToBits (l : List Nat) : List Bool := (l.map byteToBits).flatten

/-- Reassemble one byte from eight MSB-first bits. -/
def bitsToByte (l : List Bool) : Nat :=
  l.foldl (fun a b => 2 * a + cond b 1 0) 0

/-- Reassemble a byte string from an MSB-first bit path. -/
def bitsToBytes : List Bool → List Nat
  | b7 :: b6 :: b5 :: b4 :: b3 :: b2 :: b1 :: b0 :: rest =>
    bitsToByte [b7, b6, b5, b4, b3, b2, b1, b0] :: bitsToBytes rest
  | _ => []

/-! ## The sparse Merkle tree engine

Modelled from the spec: the engine source `sparse/merkle_tree.rs` is not
among the provided files, so the tree shape and the insert and delete
algorithms below follow specification section 4.5 (navigation by MSB-first
key bits, leaf-collision splitting into a chain of internal nodes down to the
first differing bit, and leaf promotion with path compression on delete),
while the hashing rules follow sections 3 and 4.1. -/

/-- The materialised part of the sparse tree.  `empty` is the placeholder
(`ZERO_HASH`) subtree; a leaf stores the still-unconsumed suffix of its key
bit path together with the value hash; an internal node stores its two
children. -/
inductive SMT where
  | empty : SMT
  | leaf : List Bool → Bytes32 → SMT
  | node : SMT → SMT → SMT
deriving DecidableEq

/-- `ZERO_HASH`, the all-zero 32-byte value. -/
def ZERO_HASH : Bytes32 := List.replicate 32 0

/-- Modelled from the spec: `leaf_hash(leaf_key, value_hash)` is
`hash(0x00 ‖ leaf_key ‖ value_hash)` (section 4.1). -/
def leafHash (leafKey : Bytes32) (valueHash : Bytes32) : Bytes32 :=
  sum (leafPrefixByte :: (leafKey ++ valueHash))

/-- Modelled from the spec: `node_hash(left, right)` is
`hash(0x01 ‖ left ‖ right)` (section 4.1). -/
def nodeHash (left right : Bytes32) : Bytes32 :=
  sum (nodePrefixByte :: (left ++ right))

/-- The hash of a subtree whose position is reached along the bit path
`pfx`; a placeholder hashes to `ZERO_HASH`, which the parent folds in
unchanged (section 3). -/
def rootHash : SMT → List Bool → Bytes32
  | .empty, _ => ZERO_HASH
  | .leaf k vh, pfx => leafHash (bitsToBytes (pfx ++ k)) vh
  | .node l r, pfx =>
    nodeHash (rootHash l (pfx ++ [false])) (rootHash r (pfx ++ [true]))

/-- Modelled from the spec: the chain of internal nodes created when a new
leaf collides with an existing one — internal nodes are materialised down to
the first differing bit, where the two leaves part ways (section 4.5, insert
case b).  The catch-all is unreachable for distinct keys of equal length. -/
def split : List Bool → Bytes32 → List Bool → Bytes32 → SMT
  | true :: t1, v1, true :: t2, v2 => .node .empty (split t1 v1 t2 v2)
  | false :: t1, v1, false :: t2, v2 => .node (split t1 v1 t2 v2) .empty
  | false :: t1, v1, true :: t2, v2 => .node (.leaf t1 v1) (.leaf t2 v2)
  | true :: t1, v1, false :: t2, v2 => .node (.leaf t2 v2) (.leaf t1 v1)
  | k1, v1, _, _ => .leaf k1 v1

/-- Modelled from the spec: insert a leaf with remaining key path `k` and
value hash `vh` (section 4.5).  A vacancy takes the leaf as is; an equal-key
leaf is replaced; a differing leaf is split; otherwise the decision bit picks
the child to descend into. -/
def ins (k : List Bool) (vh : Bytes32) (t : SMT) : SMT :=
  match t, k with
  | .empty, k => .leaf k vh
  | .leaf k2 v2, k => if k = k2 then .leaf k vh else split k vh k2 v2
  | .node l r, [] => .node l r
  | .node l r, true :: k2 => .node l (ins k2 vh r)
  | .node l r, false :: k2 => .node (ins k2 vh l) r
termination_by structural t

/-- Modelled from the spec: rebuild a parent after a child changed,
enforcing invariants 2 and 3 of section 3 — a node never keeps two empty
children, and a lone leaf child is promoted past the node (path
compression on delete, section 4.5 delete step 2). -/
def mkNode : SMT → SMT → SMT
  | .empty, .empty => .empty
  | .empty, .leaf k v => .leaf (true :: k) v
  | .leaf k v, .empty => .leaf (false :: k) v
  | l, r => .node l r

/-- Modelled from the spec: delete the leaf with remaining key path `k`
(section 4.5).  A missing key is a no-op; after removing a leaf the
ancestors are renormalised with `mkNode`. -/
def del (k : List Bool) (t : SMT) : SMT :=
  match t, k with
  | .empty, _ => .empty
  | .leaf k2 v2, k => if k = k2 then .empty else .leaf k2 v2
  | .node l r, [] => .node l r
  | .node l r, true :: k2 => mkNode l (del k2 r)
  | .node l r, false :: k2 => mkNode (del k2 l) r
termination_by structural t

end FuelMerkle

namespace FuelMerkle

/-! ## Well-formedness of tree states -/

/-- The children of an internal node may not both be empty, and a lone leaf
child is never kept under an internal node (invariants 2 and 3 of section 3;
chains with one empty side and an internal child are legal). -/
def okShape : SMT → SMT → Bool
  | .empty, .empty => false
  | .empty, .leaf _ _ => false
  | .leaf _ _, .empty => false
  | _, _ => true

/-- Every internal node of the tree satisfies `okShape` (the path-compressed
canonical form every API-reachable tree has). -/
def canon : SMT → Bool
  | .empty => true
  | .leaf _ _ => true
  | .node l r => okShape l r && canon l && canon r

/-- Key suffixes stored at depth `d` of a 256-level tree have length
`256 - d`; `wf n t` says every leaf of `t` stores a suffix of length `n`
matching its depth. -/
def wf : Nat → SMT → Bool
  | _, .empty => true
  | n, .leaf k _ => k.length == n
  | n, .node l r =>
    match n with
    | 0 => false
    | m + 1 => wf m l && wf m r

/-- The full key bit paths of the leaves of a subtree. -/
def keysOf : SMT → List (List Bool)
  | .empty => []
  | .leaf k _ => [k]
  | .node l r =>
    (keysOf l).map (fun s => false :: s) ++ (keysOf r).map (fun s => true :: s)

/-! ## The bulk constructor

Modelled from the spec: `from_set` materialises the pairs, sorts them by key
ascending (MSB-first), turns each pair into a leaf and folds adjacent
leaves and subtrees into internal nodes until a single root remains
(section 4.6).  `build` below is that fold expressed top-down: at each level
the still-open key suffixes are partitioned on their leading bit, and a side
with no keys stays a placeholder. -/

/-- Keep the pairs whose key suffix starts with bit `b`, consuming that bit. -/
def stripB (b : Bool) (l : List (List Bool × Bytes32)) : List (List Bool × Bytes32) :=
  l.filterMap (fun p =>
    match p.1 with
    | c :: rest => if c = b then some (rest, p.2) else none
    | [] => none)

/-- The canonical path-compressed tree of a set of (key-suffix, value-hash)
pairs whose suffixes all have length `n`. -/
def build (n : Nat) (l : List (List Bool × Bytes32)) : SMT :=
  match l, n with
  | [], _ => .empty
  | [(k, v)], _ => .leaf k v
  | _ :: _ :: _, 0 => .empty
  | p :: q :: t, m + 1 =>
    .node (build m (stripB false (p :: q :: t))) (build m (stripB true (p :: q :: t)))
termination_by structural n

/-- MSB-first lexicographic order on key bit paths (`false` before `true`),
the ascending key order `from_set` sorts by. -/
def lexLe : List Bool → List Bool → Bool
  | [], _ => true
  | _ :: _, [] => false
  | a :: as, b :: bs => (!a && b) || (a == b && lexLe as bs)

/-- Convert the user-supplied pairs to (bit path, value hash) form, hashing
each value as insert does (section 4.5, step 1). -/
def convPairs (l : List (Bytes32 × List Nat)) : List (List Bool × Bytes32) :=
  l.map (fun p => (bytesToBits p.1, sum p.2))

/-- Modelled from the spec: the tree `from_set` builds — pairs sorted by key
ascending, then folded into the canonical tree (section 4.6, steps 1-4). -/
def buildTree (l : List (Bytes32 × List Nat)) : SMT :=
  build 256 (List.insertionSort (fun a b => lexLe a.1 b.1 = true) (convPairs l))

/-! ## Node primitives and the storage backends of `in_memory.rs` -/

/-- A serialised node (`Primitive`): 69 bytes per section 4.3 —
big-endian `height`, 32-byte `pfx` word, 32-byte suffix word, and a zero
reserved byte. -/
def encodePrimitive (height : Nat) (a b : Bytes32) : List Nat :=
  [height / 16777216 % 256, height / 65536 % 256, height / 256 % 256, height % 256]
    ++ a ++ b ++ [0]

/-- The `(node hash, primitive)` pairs a bulk build writes, children before
parents (section 5: a node is written before its parent references it).
An internal node at depth `d` has height `256 - d`. -/
def emitNodes : SMT → List Bool → List (Bytes32 × List Nat)
  | .empty, _ => []
  | .leaf k vh, pfx =>
    [(leafHash (bitsToBytes (pfx ++ k)) vh,
      encodePrimitive 0 (bitsToBytes (pfx ++ k)) vh)]
  | .node l r, pfx =>
    emitNodes l (pfx ++ [false]) ++ emitNodes r (pfx ++ [true]) ++
      [(nodeHash (rootHash l (pfx ++ [false])) (rootHash r (pfx ++ [true])),
        encodePrimitive (256 - pfx.length)
          (rootHash l (pfx ++ [false])) (rootHash r (pfx ++ [true])))]

/-- An abstract `StorageInspect`/`StorageMutate` backend over state `σ`:
each operation either produces a result (`some`) or fails/panics (`none`). -/
structure StorageIface (σ : Type) where
  getOp : σ → Bytes32 → Option (Option (List Nat))
  containsOp : σ → Bytes32 → Option Bool
  insertOp : σ → Bytes32 → List Nat → Option σ
  replaceOp : σ → Bytes32 → List Nat → Option (σ × Option (List Nat))
  removeOp : σ → Bytes32 → Option σ
  takeOp : σ → Bytes32 → Option (σ × Option (List Nat))

/-- The `EmptyStorage` of `root_from_set` (`in_memory.rs`): reads report
absence, writes are accepted and discarded, nothing ever fails. -/
def emptyStorage : StorageIface Unit where
  getOp := fun _ _ => some none
  containsOp := fun _ _ => some false
  insertOp := fun s _ _ => some s
  replaceOp := fun s _ _ => some (s, none)
  removeOp := fun s _ => some s
  takeOp := fun s _ => some (s, none)

/-- The `VectorStorage` of `nodes_from_set` (`in_memory.rs`): `get`,
`contains_key`, `remove` and `take` hit `unimplemented!` (modelled as
failure), while `insert` and `replace` push the pair onto the vector. -/
def vectorStorage : StorageIface (List (Bytes32 × List Nat)) where
  getOp := fun _ _ => none
  containsOp := fun _ _ => none
  insertOp := fun s k v => some (s ++ [(k, v)])
  replaceOp := fun s k v => some (s ++ [(k, v)], none)
  removeOp := fun _ _ => none
  takeOp := fun _ _ => none

/-- Modelled from the spec: the in-memory `StorageMap` backend of
section 4.4 used by `MerkleTree::new` (its source `storage_map.rs` is not
among the provided files) — an infallible association list. -/
def mapStorage : StorageIface (List (Bytes32 × List Nat)) where
  getOp := fun s k => some ((s.find? (fun p => p.1 == k)).map (·.2))
  containsOp := fun s k => some ((s.find? (fun p => p.1 == k)).isSome)
  insertOp := fun s k v => some ((k, v) :: s.filter (fun p => !(p.1 == k)))
  replaceOp := fun s k v =>
    some ((k, v) :: s.filter (fun p => !(p.1 == k)),
      (s.find? (fun p => p.1 == k)).map (·.2))
  removeOp := fun s k => some (s.filter (fun p => !(p.1 == k)))
  takeOp := fun s k =>
    some (s.filter (fun p => !(p.1 == k)), (s.find? (fun p => p.1 == k)).map (·.2))

/-- Write a list of nodes through a backend's `insert`, stopping at the
first failure. -/
def writeAll (iface : StorageIface σ) (s : σ) :
    List (Bytes32 × List Nat) → Option σ
  | [] => some s
  | (k, v) :: rest =>
    match iface.insertOp s k v with
    | some s2 => writeAll iface s2 rest
    | none => none

/-- Modelled from the spec: `MerkleTree::from_set(storage, set)` — build the
canonical tree of the set and write every materialised node through the
backend (section 4.6); fails only if a storage operation fails. -/
def from_setS (iface : StorageIface σ) (s : σ) (l : List (Bytes32 × List Nat)) :
    Option (σ × SMT) :=
  let t := buildTree l
  match writeAll iface s (emitNodes t []) with
  | some s2 => some (s2, t)
  | none => none

end FuelMerkle

/-! ## The public in-memory wrapper, translated from `in_memory.rs` -/

namespace FuelMerkle

/-- `in_memory::MerkleTree`: a sparse tree over the infallible in-memory
storage map.  The storage contents are carried alongside the abstract tree. -/
structure MerkleTree where
  tree : SMT
  storage : List (Bytes32 × List Nat)

/-- `MerkleTree::new()`: empty root, empty storage. -/
def MerkleTree.new : MerkleTree := ⟨.empty, []⟩

/-- `Default for MerkleTree` forwards to `new`. -/
def MerkleTree.defaultTree : MerkleTree := MerkleTree.new

/-- `MerkleTree::update(key, data)`: insert a leaf for the pre-hashed key
with the hash of `data` (the inner engine result is discarded by the
wrapper; the in-memory storage cannot fail). -/
def MerkleTree.update (t : MerkleTree) (key : Bytes32) (data : List Nat) :
    MerkleTree :=
  ⟨ins (bytesToBits key) (sum data) t.tree, t.storage⟩

/-- `MerkleTree::delete(key)`. -/
def MerkleTree.delete (t : MerkleTree) (key : Bytes32) : MerkleTree :=
  ⟨del (bytesToBits key) t.tree, t.storage⟩

/-- `MerkleTree::root()`. -/
def MerkleTree.root (t : MerkleTree) : Bytes32 := rootHash t.tree []

/-- `MerkleTree::from_set(set)`: run the bulk build against a fresh
`StorageMap` and unwrap (the map cannot fail). -/
def MerkleTree.from_set (l : List (Bytes32 × List Nat)) : MerkleTree :=
  match from_setS mapStorage [] l with
  | some (s, t) => ⟨t, s⟩
  | none => ⟨.empty, []⟩

/-- `MerkleTree::root_from_set(set)`: run the bulk build against
`EmptyStorage` and return only the root. -/
def MerkleTree.root_from_set (l : List (Bytes32 × List Nat)) : Bytes32 :=
  match from_setS emptyStorage () l with
  | some (_, t) => rootHash t []
  | none => ZERO_HASH

/-- `MerkleTree::nodes_from_set(set)`: run the bulk build against
`VectorStorage` and return the root with the collected nodes. -/
def MerkleTree.nodes_from_set (l : List (Bytes32 × List Nat)) :
    Bytes32 × List (Bytes32 × List Nat) :=
  match from_setS vectorStorage [] l with
  | some (s, t) => (rootHash t [], s)
  | none => (ZERO_HASH, [])

/-- Sequentially apply `update` for a list of key-value pairs. -/
def applyUpdates (t : MerkleTree) (l : List (Bytes32 × List Nat)) : MerkleTree :=
  l.foldl (fun acc p => acc.update p.1 p.2) t

end FuelMerkle

/-! ## Theorems -/

set_option maxRecDepth 100000

namespace FuelMerkle

/-- Each byte below 256 round-trips through its MSB-first bit expansion. -/
theorem bitsToByte_byteToBits : ∀ b : Nat, b < 256 → bitsToByte (byteToBits b) = b := by
  decide

/-- The bit expansion of one byte prepends eight bits. -/
theorem bytesToBits_cons (a : Nat) (t : List Nat) :
    bytesToBits (a :: t) = byteToBits a ++ bytesToBits t := by
  simp [bytesToBits]

/-- A byte string of bytes below 256 round-trips through its bit path. -/
theorem bitsToBytes_bytesToBits (l : List Nat) (h : ∀ b ∈ l, b < 256) :
    bitsToBytes (bytesToBits l) = l := by
  induction l with
  | nil => rfl
  | cons a t ih =>
    have ha : a < 256 := h a (by simp)
    have ht : ∀ b ∈ t, b < 256 := fun b hb => h b (by simp [hb])
    rw [bytesToBits_cons]
    have hb := bitsToByte_byteToBits a ha
    simp only [byteToBits] at hb ⊢
    simp only [List.cons_append, List.nil_append, bitsToBytes, List.append_eq]
    rw [hb, ih ht]

/-- C5: a freshly constructed tree (`MerkleTree::new()`, and equally
`MerkleTree::default()`) has root `ZERO_HASH`, the 32-byte all-zero value. -/
theorem new_tree_root_is_zero_hash :
    MerkleTree.new.root = ZERO_HASH ∧
    MerkleTree.defaultTree.root = ZERO_HASH ∧
    ZERO_HASH = List.replicate 32 0 :=
  ⟨rfl, rfl, rfl⟩

/-- C7: `leaf_sum(d)` is the BLAKE3 digest of the byte `0x00` followed by
`d`, and `node_sum(l, r)` is the BLAKE3 digest of the byte `0x01` followed
by `l` and `r` — both equal `sum` of the prefixed concatenation. -/
theorem leaf_sum_node_sum_are_prefixed_sums (d l r : List Nat) :
    leaf_sum d = sum (leafPrefixByte :: d) ∧
    node_sum l r = sum (nodePrefixByte :: (l ++ r)) := by
  constructor <;>
    simp [leaf_sum, node_sum, sum, Hasher.new, Hasher.update, Hasher.finalize]

/-- C8: the constant returned by `empty_sum_blake3()` (and both forwarding
`empty_sum()` functions) is exactly the BLAKE3-256 digest of the empty byte
string. -/
theorem empty_sum_blake3_is_sum_of_empty :
    empty_sum_blake3 = sum [] ∧
    binary_empty_sum = empty_sum_blake3 ∧
    test_helpers_empty_sum = empty_sum_blake3 := by
  refine ⟨by decide, rfl, by decide⟩

/-- The expected root of the repository's `test_update_1`:
`2d160499ae72cf3ecefc4a281d1fae5cb0cf413f302d553a99ec387b80d6b696`. -/
def singleLeafExpectedRoot : Bytes32 :=
  [0x2d, 0x16, 0x04, 0x99, 0xae, 0x72, 0xcf, 0x3e, 0xce, 0xfc, 0x4a, 0x28,
   0x1d, 0x1f, 0xae, 0x5c, 0xb0, 0xcf, 0x41, 0x3f, 0x30, 0x2d, 0x55, 0x3a,
   0x99, 0xec, 0x38, 0x7b, 0x80, 0xd6, 0xb6, 0x96]

/-- C4: inserting `(k, v)` into an empty tree makes the root
`leaf_hash(k, hash(v))`, i.e. `BLAKE3(0x00 ‖ k ‖ BLAKE3(v))`; in particular
with `k = BLAKE3("\x00\x00\x00\x00")` and `v = "DATA"` the root is
`2d160499ae72cf3ecefc4a281d1fae5cb0cf413f302d553a99ec387b80d6b696`. -/
theorem single_leaf_root_is_leaf_hash :
    (∀ (k : Bytes32) (v : List Nat), k.length = 32 → (∀ b ∈ k, b < 256) →
      (MerkleTree.new.update k v).root = leafHash k (sum v)) ∧
    (MerkleTree.new.update (sum [0, 0, 0, 0]) [0x44, 0x41, 0x54, 0x41]).root =
      singleLeafExpectedRoot := by
  constructor
  · intro k v _ hb
    simp only [MerkleTree.update, MerkleTree.root, MerkleTree.new, ins, rootHash,
      List.nil_append]
    rw [bitsToBytes_bytesToBits k hb]
  · decide

/-- Witness for C4 at the repository's own test input. -/
theorem single_leaf_root_is_leaf_hash_witness :
    (MerkleTree.new.update (sum [0, 0, 0, 0]) [0x44, 0x41, 0x54, 0x41]).root =
      leafHash (sum [0, 0, 0, 0]) (sum [0x44, 0x41, 0x54, 0x41]) :=
  single_leaf_root_is_leaf_hash.1 (sum [0, 0, 0, 0]) [0x44, 0x41, 0x54, 0x41]
    (by decide) (by decide)

end FuelMerkle

namespace FuelMerkle

/-- A bit path expands to eight bits per byte. -/
theorem length_bytesToBits (l : List Nat) : (bytesToBits l).length = 8 * l.length := by
  induction l with
  | nil => rfl
  | cons a t ih =>
    rw [bytesToBits_cons]
    simp only [List.length_append, List.length_cons, ih, byteToBits]
    simp [List.length]
    omega

/-- Renormalising two children that already satisfy the node-shape invariant
changes nothing. -/
theorem mkNode_ok (l r : SMT) (h : okShape l r = true) : mkNode l r = .node l r := by
  cases l <;> cases r <;> simp_all [okShape, mkNode]

/-- Deleting the freshly inserted key from a split chain restores the leaf
that was split against. -/
theorem del_split (k1 : List Bool) (v1 : Bytes32) (k2 : List Bool) (v2 : Bytes32)
    (hne : k1 ≠ k2) (hlen : k1.length = k2.length) :
    del k1 (split k1 v1 k2 v2) = .leaf k2 v2 := by
  induction k1 generalizing k2 with
  | nil =>
    cases k2 with
    | nil => exact absurd rfl hne
    | cons b t => simp at hlen
  | cons a t1 ih =>
    cases k2 with
    | nil => simp at hlen
    | cons b t2 =>
      have hlen2 : t1.length = t2.length := by simpa using hlen
      cases a <;> cases b
      · have hne2 : t1 ≠ t2 := fun h => hne (by rw [h])
        simp only [split, del]
        rw [ih t2 hne2 hlen2]
        simp [mkNode]
      · simp [split, del, mkNode]
      · simp [split, del, mkNode]
      · have hne2 : t1 ≠ t2 := fun h => hne (by rw [h])
        simp only [split, del]
        rw [ih t2 hne2 hlen2]
        simp [mkNode]

/-- Deleting a key just inserted into a well-formed canonical tree that did
not contain it restores the tree exactly. -/
theorem del_ins (t : SMT) : ∀ (n : Nat) (k : List Bool) (vh : Bytes32),
    wf n t = true → canon t = true → k.length = n → k ∉ keysOf t →
    del k (ins k vh t) = t := by
  induction t with
  | empty => intro n k vh _ _ _ _; simp [ins, del]
  | leaf k2 v2 =>
    intro n k vh hwf _ hlen hmem
    have hne : k ≠ k2 := by simpa [keysOf] using hmem
    have hl2 : k2.length = n := by simpa [wf] using hwf
    simp only [ins, if_neg hne]
    exact del_split k vh k2 v2 hne (by omega)
  | node l r ihl ihr =>
    intro n k vh hwf hcan hlen hmem
    cases n with
    | zero => simp [wf] at hwf
    | succ m =>
      simp only [wf, Bool.and_eq_true] at hwf
      simp only [canon, Bool.and_eq_true] at hcan
      cases k with
      | nil => simp at hlen
      | cons b k2 =>
        have hl2 : k2.length = m := by simpa using hlen
        cases b
        · have hm : k2 ∉ keysOf l := by
            intro hk
            apply hmem
            simp only [keysOf, List.mem_append, List.mem_map]
            exact Or.inl ⟨k2, hk, rfl⟩
          simp only [ins, del]
          rw [ihl m k2 vh hwf.1 hcan.1.2 hl2 hm]
          exact mkNode_ok l r hcan.1.1
        · have hm : k2 ∉ keysOf r := by
            intro hk
            apply hmem
            simp only [keysOf, List.mem_append, List.mem_map]
            exact Or.inr ⟨k2, hk, rfl⟩
          simp only [ins, del]
          rw [ihr m k2 vh hwf.2 hcan.2 hl2 hm]
          exact mkNode_ok l r hcan.1.1

/-- C6: for every well-formed canonical tree state, key not present in it,
and value, `update` followed by `delete` of that key returns the root to
exactly the prior root. -/
theorem insert_then_delete_restores_root (t : MerkleTree) (k : Bytes32)
    (v : List Nat) (hwf : wf 256 t.tree = true) (hcan : canon t.tree = true)
    (hk : k.length = 32) (hmem : bytesToBits k ∉ keysOf t.tree) :
    ((t.update k v).delete k).root = t.root := by
  have hlen : (bytesToBits k).length = 256 := by rw [length_bytesToBits, hk]
  show rootHash (del (bytesToBits k) (ins (bytesToBits k) (sum v) t.tree)) [] = _
  rw [del_ins t.tree 256 (bytesToBits k) (sum v) hwf hcan hlen hmem]
  rfl

/-- Witness for C6: inserting a key into the empty tree and deleting it
again returns the root to `ZERO_HASH`. -/
theorem insert_then_delete_restores_root_witness :
    ((MerkleTree.new.update (List.replicate 32 0) [1, 2]).delete
      (List.replicate 32 0)).root = MerkleTree.new.root :=
  insert_then_delete_restores_root MerkleTree.new (List.replicate 32 0) [1, 2]
    rfl rfl (by simp) (by simp [keysOf, MerkleTree.new])

end FuelMerkle

namespace FuelMerkle

/-- Characterise membership after stripping a leading bit. -/
theorem mem_stripB (b : Bool) (l : List (List Bool × Bytes32))
    (q : List Bool × Bytes32) : q ∈ stripB b l ↔ (b :: q.1, q.2) ∈ l := by
  simp only [stripB, List.mem_filterMap]
  constructor
  · rintro ⟨⟨pk, pv⟩, hp, he⟩
    cases pk with
    | nil => simp at he
    | cons c rest =>
      simp only at he
      by_cases hc : c = b
      · subst hc
        rw [if_pos rfl] at he
        obtain rfl := Option.some.inj he
        exact hp
      · rw [if_neg hc] at he
        cases he
  · intro h
    exact ⟨(b :: q.1, q.2), h, by simp⟩

/-- Stripping a bit shortens every key suffix by one. -/
theorem stripB_lengths (b : Bool) (n : Nat) (l : List (List Bool × Bytes32))
    (h : ∀ p ∈ l, p.1.length = n + 1) : ∀ q ∈ stripB b l, q.1.length = n := by
  intro q hq
  have := h _ ((mem_stripB b l q).mp hq)
  simpa using this

/-- Stripping a bit preserves key distinctness. -/
theorem stripB_pairwise (b : Bool) (l : List (List Bool × Bytes32))
    (h : l.Pairwise fun p q => p.1 ≠ q.1) :
    (stripB b l).Pairwise fun p q => p.1 ≠ q.1 := by
  induction l with
  | nil => simp [stripB]
  | cons p t ih =>
    rw [List.pairwise_cons] at h
    obtain ⟨hp, ht⟩ := h
    have iht := ih ht
    obtain ⟨pk, pv⟩ := p
    cases pk with
    | nil => simpa [stripB] using iht
    | cons c rest =>
      by_cases hc : c = b
      · subst hc
        have he : stripB c ((c :: rest, pv) :: t) = (rest, pv) :: stripB c t := by
          simp [stripB]
        rw [he, List.pairwise_cons]
        refine ⟨?_, iht⟩
        intro q hq he2
        have hmem := (mem_stripB c t q).mp hq
        exact hp (c :: q.1, q.2) hmem
          (congrArg (fun x => c :: x) (show rest = q.1 from he2))
      · have he : stripB b ((c :: rest, pv) :: t) = stripB b t := by
          simp [stripB, hc]
        rw [he]
        exact iht

/-- Stripping distributes over append. -/
theorem stripB_append (b : Bool) (l1 l2 : List (List Bool × Bytes32)) :
    stripB b (l1 ++ l2) = stripB b l1 ++ stripB b l2 := by
  simp [stripB]

/-- Stripping a singleton whose key starts with the stripped bit. -/
theorem stripB_single_hit (b : Bool) (k : List Bool) (v : Bytes32) :
    stripB b [(b :: k, v)] = [(k, v)] := by
  simp [stripB]

/-- Stripping a singleton whose key starts with the other bit. -/
theorem stripB_single_miss (b c : Bool) (k : List Bool) (v : Bytes32)
    (h : c ≠ b) : stripB b [(c :: k, v)] = [] := by
  simp [stripB, h]

/-- A key absent from a list stays absent (minus its head bit) after
stripping that bit. -/
theorem stripB_keys_not_mem (b : Bool) (l : List (List Bool × Bytes32))
    (k : List Bool) (h : (b :: k) ∉ l.map Prod.fst) :
    k ∉ (stripB b l).map Prod.fst := by
  intro hk
  obtain ⟨q, hq, he⟩ := List.mem_map.mp hk
  exact h (List.mem_map.mpr ⟨(b :: q.1, q.2), (mem_stripB b l q).mp hq, by simp [he]⟩)

/-- The canonical tree of a set does not depend on the order of the pairs. -/
theorem build_perm : ∀ (n : Nat) (l1 l2 : List (List Bool × Bytes32)),
    l1.Perm l2 → build n l1 = build n l2 := by
  intro n
  induction n with
  | zero =>
    intro l1 l2 h
    have hlen := h.length_eq
    cases l1 with
    | nil => rw [← h.nil_eq]
    | cons p t =>
      cases t with
      | nil =>
        cases l2 with
        | nil => simp at hlen
        | cons q s =>
          cases s with
          | nil =>
            obtain rfl : p = q := by simpa using List.singleton_perm.mp h
            rfl
          | cons r s2 => simp at hlen
      | cons a t2 =>
        cases l2 with
        | nil => simp at hlen
        | cons q s =>
          cases s with
          | nil => simp at hlen
          | cons b s2 => rfl
  | succ m ih =>
    intro l1 l2 h
    have hlen := h.length_eq
    cases l1 with
    | nil => rw [← h.nil_eq]
    | cons p t =>
      cases t with
      | nil =>
        cases l2 with
        | nil => simp at hlen
        | cons q s =>
          cases s with
          | nil =>
            obtain rfl : p = q := by simpa using List.singleton_perm.mp h
            rfl
          | cons r s2 => simp at hlen
      | cons a t2 =>
        cases l2 with
        | nil => simp at hlen
        | cons q s =>
          cases s with
          | nil => simp at hlen
          | cons b s2 =>
            show SMT.node _ _ = SMT.node _ _
            congr 1
            · exact ih _ _ (h.filterMap _)
            · exact ih _ _ (h.filterMap _)

/-- Building a two-element set is splitting the two leaves. -/
theorem split_build : ∀ (n : Nat) (k1 : List Bool) (v1 : Bytes32)
    (k2 : List Bool) (v2 : Bytes32), k1.length = n → k2.length = n → k1 ≠ k2 →
    build n [(k2, v2), (k1, v1)] = split k1 v1 k2 v2 := by
  intro n
  induction n with
  | zero =>
    intro k1 v1 k2 v2 h1 h2 hne
    rw [List.length_eq_zero] at h1 h2
    subst h1; subst h2
    exact absurd rfl hne
  | succ m ih =>
    intro k1 v1 k2 v2 h1 h2 hne
    cases k1 with
    | nil => simp at h1
    | cons c1 t1 =>
      cases k2 with
      | nil => simp at h2
      | cons c2 t2 =>
        have h1b : t1.length = m := by simpa using h1
        have h2b : t2.length = m := by simpa using h2
        cases c1 <;> cases c2
        · have hne2 : t1 ≠ t2 := fun h => hne (by rw [h])
          show SMT.node _ _ = _
          rw [show ((false :: t2, v2) :: [(false :: t1, v1)] :
                List (List Bool × Bytes32)) = [(false :: t2, v2)] ++ [(false :: t1, v1)]
              from rfl]
          rw [stripB_append, stripB_append, stripB_single_hit, stripB_single_hit,
            stripB_single_miss true false t2 v2 (by simp),
            stripB_single_miss true false t1 v1 (by simp)]
          simp only [List.cons_append, List.nil_append, List.append_nil]
          rw [ih t1 v1 t2 v2 h1b h2b hne2]
          simp only [split, build]
        · show SMT.node _ _ = _
          rw [show ((true :: t2, v2) :: [(false :: t1, v1)] :
                List (List Bool × Bytes32)) = [(true :: t2, v2)] ++ [(false :: t1, v1)]
              from rfl]
          rw [stripB_append, stripB_append, stripB_single_hit, stripB_single_hit,
            stripB_single_miss false true t2 v2 (by simp),
            stripB_single_miss true false t1 v1 (by simp)]
          simp only [List.cons_append, List.nil_append, List.append_nil]
          simp only [split, build]
        · show SMT.node _ _ = _
          rw [show ((false :: t2, v2) :: [(true :: t1, v1)] :
                List (List Bool × Bytes32)) = [(false :: t2, v2)] ++ [(true :: t1, v1)]
              from rfl]
          rw [stripB_append, stripB_append, stripB_single_hit, stripB_single_hit,
            stripB_single_miss true false t2 v2 (by simp),
            stripB_single_miss false true t1 v1 (by simp)]
          simp only [List.cons_append, List.nil_append, List.append_nil]
          simp only [split, build]
        · have hne2 : t1 ≠ t2 := fun h => hne (by rw [h])
          show SMT.node _ _ = _
          rw [show ((true :: t2, v2) :: [(true :: t1, v1)] :
                List (List Bool × Bytes32)) = [(true :: t2, v2)] ++ [(true :: t1, v1)]
              from rfl]
          rw [stripB_append, stripB_append, stripB_single_hit, stripB_single_hit,
            stripB_single_miss false true t2 v2 (by simp),
            stripB_single_miss false true t1 v1 (by simp)]
          simp only [List.cons_append, List.nil_append, List.append_nil]
          rw [ih t1 v1 t2 v2 h1b h2b hne2]
          simp only [split, build]

end FuelMerkle

namespace FuelMerkle

/-- Inserting a fresh key into the canonical tree of a set yields the
canonical tree of the extended set. -/
theorem ins_build : ∀ (n : Nat) (l : List (List Bool × Bytes32))
    (k : List Bool) (v : Bytes32),
    (∀ p ∈ l, p.1.length = n) → k.length = n →
    l.Pairwise (fun p q => p.1 ≠ q.1) → k ∉ l.map Prod.fst →
    ins k v (build n l) = build n (l ++ [(k, v)]) := by
  intro n
  induction n with
  | zero =>
    intro l k v hlen hk hdk hmem
    cases l with
    | nil => rfl
    | cons p t =>
      cases t with
      | nil =>
        have hp : p.1 = [] := List.length_eq_zero.mp (hlen p (by simp))
        have hk0 : k = [] := List.length_eq_zero.mp hk
        exact absurd (List.mem_map.mpr ⟨p, by simp, by rw [hp, hk0]⟩) hmem
      | cons q t2 =>
        have hp : p.1 = [] := List.length_eq_zero.mp (hlen p (by simp))
        have hq : q.1 = [] := List.length_eq_zero.mp (hlen q (by simp))
        rw [List.pairwise_cons] at hdk
        exact absurd (hp.trans hq.symm) (hdk.1 q (by simp))
  | succ m ih =>
    intro l k v hlen hk hdk hmem
    cases l with
    | nil => rfl
    | cons p t =>
      cases t with
      | nil =>
        have hne : k ≠ p.1 := fun h => hmem (by simp [h])
        have hp : p.1.length = m + 1 := hlen p (by simp)
        have e1 : ins k v (build (m + 1) [p]) = split k v p.1 p.2 := by
          show ins k v (.leaf p.1 p.2) = _
          simp [ins, hne]
        rw [e1, ← split_build (m + 1) k v p.1 p.2 hk hp hne]
        rfl
      | cons q t2 =>
        cases k with
        | nil => simp at hk
        | cons c k2 =>
          have hk2 : k2.length = m := by simpa using hk
          have hlenS : ∀ b : Bool, ∀ r ∈ stripB b (p :: q :: t2), r.1.length = m :=
            fun b => stripB_lengths b m _ hlen
          have hdkS : ∀ b : Bool,
              (stripB b (p :: q :: t2)).Pairwise fun r s => r.1 ≠ s.1 :=
            fun b => stripB_pairwise b _ hdk
          have happ : (p :: q :: t2) ++ [(c :: k2, v)] =
              p :: q :: (t2 ++ [(c :: k2, v)]) := by simp
          cases c
          · have hmemS : k2 ∉ (stripB false (p :: q :: t2)).map Prod.fst :=
              stripB_keys_not_mem false _ k2 hmem
            have ef : stripB false ((p :: q :: t2) ++ [(false :: k2, v)]) =
                stripB false (p :: q :: t2) ++ [(k2, v)] := by
              rw [stripB_append, stripB_single_hit]
            have et : stripB true ((p :: q :: t2) ++ [(false :: k2, v)]) =
                stripB true (p :: q :: t2) := by
              rw [stripB_append, stripB_single_miss true false k2 v (by simp),
                List.append_nil]
            rw [happ] at ef et
            show SMT.node
                (ins k2 v (build m (stripB false (p :: q :: t2))))
                (build m (stripB true (p :: q :: t2))) =
              SMT.node (build m (stripB false (p :: q :: (t2 ++ [(false :: k2, v)]))))
                (build m (stripB true (p :: q :: (t2 ++ [(false :: k2, v)]))))
            rw [ef, et, ih _ k2 v (hlenS false) hk2 (hdkS false) hmemS]
          · have hmemS : k2 ∉ (stripB true (p :: q :: t2)).map Prod.fst :=
              stripB_keys_not_mem true _ k2 hmem
            have ef : stripB false ((p :: q :: t2) ++ [(true :: k2, v)]) =
                stripB false (p :: q :: t2) := by
              rw [stripB_append, stripB_single_miss false true k2 v (by simp),
                List.append_nil]
            have et : stripB true ((p :: q :: t2) ++ [(true :: k2, v)]) =
                stripB true (p :: q :: t2) ++ [(k2, v)] := by
              rw [stripB_append, stripB_single_hit]
            rw [happ] at ef et
            show SMT.node (build m (stripB false (p :: q :: t2)))
                (ins k2 v (build m (stripB true (p :: q :: t2)))) =
              SMT.node (build m (stripB false (p :: q :: (t2 ++ [(true :: k2, v)]))))
                (build m (stripB true (p :: q :: (t2 ++ [(true :: k2, v)]))))
            rw [ef, et, ih _ k2 v (hlenS true) hk2 (hdkS true) hmemS]

/-- Folding `ins` over a list of distinct equal-length keys produces the
canonical tree of the set. -/
theorem foldl_ins_eq_build (n : Nat) :
    ∀ l : List (List Bool × Bytes32), (∀ p ∈ l, p.1.length = n) →
    l.Pairwise (fun p q => p.1 ≠ q.1) →
    l.foldl (fun t p => ins p.1 p.2 t) .empty = build n l := by
  intro l
  induction l using List.reverseRecOn with
  | nil => intro _ _; simp [build]
  | append_singleton l p ih =>
    intro hlen hdk
    have hl : ∀ q ∈ l, q.1.length = n := fun q hq => hlen q (by simp [hq])
    have hdk2 := List.pairwise_append.mp hdk
    have hmem : p.1 ∉ l.map Prod.fst := by
      intro hm
      obtain ⟨q, hq, he⟩ := List.mem_map.mp hm
      exact hdk2.2.2 q hq p (by simp) (by rw [he])
    rw [List.foldl_append, List.foldl_cons, List.foldl_nil, ih hl hdk2.1,
      ins_build n l p.1 p.2 hl (hlen p (by simp)) hdk2.1 hmem]

end FuelMerkle

namespace FuelMerkle

/-- Bit paths of bounded byte strings determine the byte strings. -/
theorem bytesToBits_injOn (k1 k2 : List Nat) (h1 : ∀ b ∈ k1, b < 256)
    (h2 : ∀ b ∈ k2, b < 256) (he : bytesToBits k1 = bytesToBits k2) : k1 = k2 := by
  rw [← bitsToBytes_bytesToBits k1 h1, ← bitsToBytes_bytesToBits k2 h2, he]

/-- Sequential `update` calls are the fold of `ins` over the converted pairs. -/
theorem applyUpdates_tree (l : List (Bytes32 × List Nat)) : ∀ t : MerkleTree,
    (applyUpdates t l).tree =
      (convPairs l).foldl (fun s p => ins p.1 p.2 s) t.tree := by
  induction l with
  | nil => intro t; rfl
  | cons p t2 ih =>
    intro t
    show (applyUpdates (t.update p.1 p.2) t2).tree = _
    rw [ih]
    rfl

/-- Converted pairs carry 256-bit key paths. -/
theorem convPairs_lengths (l : List (Bytes32 × List Nat))
    (h : ∀ p ∈ l, p.1.length = 32) : ∀ q ∈ convPairs l, q.1.length = 256 := by
  intro q hq
  obtain ⟨p, hp, rfl⟩ := List.mem_map.mp hq
  show (bytesToBits p.1).length = 256
  rw [length_bytesToBits, h p hp]

/-- Converting distinct bounded keys keeps the key paths distinct. -/
theorem convPairs_pairwise (l : List (Bytes32 × List Nat))
    (hdk : l.Pairwise fun p q => p.1 ≠ q.1)
    (hb : ∀ p ∈ l, ∀ b ∈ p.1, b < 256) :
    (convPairs l).Pairwise fun p q => p.1 ≠ q.1 := by
  rw [convPairs, List.pairwise_map]
  refine hdk.imp_of_mem ?_
  intro a c ha hc hne he
  exact hne (bytesToBits_injOn a.1 c.1 (hb a ha) (hb c hc) he)

/-- C1: for every set of key-value pairs with distinct keys, inserting the
pairs one by one via `update` into a fresh tree yields the same root for
every permutation of the insertion order. -/
theorem insertion_order_root_invariance (l1 l2 : List (Bytes32 × List Nat))
    (hperm : l1.Perm l2) (hdk : l1.Pairwise fun p q => p.1 ≠ q.1)
    (hkey : ∀ p ∈ l1, p.1.length = 32 ∧ ∀ b ∈ p.1, b < 256) :
    (applyUpdates MerkleTree.new l1).root = (applyUpdates MerkleTree.new l2).root := by
  have hkey2 : ∀ p ∈ l2, p.1.length = 32 ∧ ∀ b ∈ p.1, b < 256 :=
    fun p hp => hkey p (hperm.mem_iff.mpr hp)
  have hdk2 : l2.Pairwise fun p q => p.1 ≠ q.1 :=
    (hperm.pairwise_iff fun h => Ne.symm h).mp hdk
  show rootHash (applyUpdates MerkleTree.new l1).tree [] =
    rootHash (applyUpdates MerkleTree.new l2).tree []
  rw [applyUpdates_tree l1 MerkleTree.new, applyUpdates_tree l2 MerkleTree.new]
  show rootHash ((convPairs l1).foldl (fun s p => ins p.1 p.2 s) .empty) [] =
    rootHash ((convPairs l2).foldl (fun s p => ins p.1 p.2 s) .empty) []
  rw [foldl_ins_eq_build 256 (convPairs l1)
      (convPairs_lengths l1 fun p hp => (hkey p hp).1)
      (convPairs_pairwise l1 hdk fun p hp => (hkey p hp).2),
    foldl_ins_eq_build 256 (convPairs l2)
      (convPairs_lengths l2 fun p hp => (hkey2 p hp).1)
      (convPairs_pairwise l2 hdk2 fun p hp => (hkey2 p hp).2),
    build_perm 256 (convPairs l1) (convPairs l2) (hperm.map _)]

/-- Witness for C1: the two insertion orders of a concrete two-element set
give the same root. -/
theorem insertion_order_root_invariance_witness :
    (applyUpdates MerkleTree.new
      [(List.replicate 32 0, [1]), (1 :: List.replicate 31 0, [2])]).root =
    (applyUpdates MerkleTree.new
      [(1 :: List.replicate 31 0, [2]), (List.replicate 32 0, [1])]).root :=
  insertion_order_root_invariance
    [(List.replicate 32 0, [1]), (1 :: List.replicate 31 0, [2])]
    [(1 :: List.replicate 31 0, [2]), (List.replicate 32 0, [1])]
    (List.Perm.swap _ _ _) (by decide) (by decide)

/-- Writing through the (infallible) in-memory storage map never fails. -/
theorem writeAll_mapStorage : ∀ (nodes : List (Bytes32 × List Nat))
    (s : List (Bytes32 × List Nat)),
    ∃ s2, writeAll mapStorage s nodes = some s2 := by
  intro nodes
  induction nodes with
  | nil => intro s; exact ⟨s, rfl⟩
  | cons p t ih =>
    intro s
    exact ih ((p.1, p.2) :: s.filter fun q => !(q.1 == p.1))

/-- Writing through `EmptyStorage` never fails (writes are discarded). -/
theorem writeAll_emptyStorage : ∀ (nodes : List (Bytes32 × List Nat)) (s : Unit),
    writeAll emptyStorage s nodes = some () := by
  intro nodes
  induction nodes with
  | nil => intro s; rfl
  | cons p t ih => intro s; exact ih ()

/-- Writing through `VectorStorage` never fails and appends every node in
emission order. -/
theorem writeAll_vectorStorage : ∀ (nodes s : List (Bytes32 × List Nat)),
    writeAll vectorStorage s nodes = some (s ++ nodes) := by
  intro nodes
  induction nodes with
  | nil => intro s; simp [writeAll]
  | cons p t ih =>
    intro s
    show writeAll vectorStorage (s ++ [(p.1, p.2)]) t = _
    rw [ih]
    simp

/-- The bulk build succeeds whenever the storage writes succeed, and its
tree is the canonical tree of the set. -/
theorem from_setS_eq {σ : Type} (iface : StorageIface σ) (s : σ)
    (l : List (Bytes32 × List Nat)) (s2 : σ)
    (h : writeAll iface s (emitNodes (buildTree l) []) = some s2) :
    from_setS iface s l = some (s2, buildTree l) := by
  unfold from_setS
  show (match writeAll iface s (emitNodes (buildTree l) []) with
    | some s3 => some (s3, buildTree l)
    | none => none) = some (s2, buildTree l)
  rw [h]

/-- C2: the tree built by `from_set(S)` has the same root as a tree built
from `new()` followed by sequential `update` calls for each pair of `S`
(keys distinct). -/
theorem from_set_root_matches_sequential (l : List (Bytes32 × List Nat))
    (hdk : l.Pairwise fun p q => p.1 ≠ q.1)
    (hkey : ∀ p ∈ l, p.1.length = 32 ∧ ∀ b ∈ p.1, b < 256) :
    (MerkleTree.from_set l).root = (applyUpdates MerkleTree.new l).root := by
  obtain ⟨s2, hs2⟩ := writeAll_mapStorage (emitNodes (buildTree l) []) []
  have hft : (MerkleTree.from_set l).tree = buildTree l := by
    unfold MerkleTree.from_set
    rw [from_setS_eq mapStorage [] l s2 hs2]
  show rootHash (MerkleTree.from_set l).tree [] =
    rootHash (applyUpdates MerkleTree.new l).tree []
  rw [hft, applyUpdates_tree l MerkleTree.new]
  show rootHash (buildTree l) [] =
    rootHash ((convPairs l).foldl (fun s p => ins p.1 p.2 s) .empty) []
  rw [foldl_ins_eq_build 256 (convPairs l)
      (convPairs_lengths l fun p hp => (hkey p hp).1)
      (convPairs_pairwise l hdk fun p hp => (hkey p hp).2)]
  unfold buildTree
  rw [build_perm 256 (List.insertionSort (fun a b => lexLe a.1 b.1 = true) (convPairs l))
      (convPairs l) (List.perm_insertionSort _ _)]

/-- Witness for C2 at a concrete two-element set. -/
theorem from_set_root_matches_sequential_witness :
    (MerkleTree.from_set
      [(List.replicate 32 3, [1]), (7 :: List.replicate 31 0, [2])]).root =
    (applyUpdates MerkleTree.new
      [(List.replicate 32 3, [1]), (7 :: List.replicate 31 0, [2])]).root :=
  from_set_root_matches_sequential
    [(List.replicate 32 3, [1]), (7 :: List.replicate 31 0, [2])]
    (by decide) (by decide)

/-- C3: `root_from_set(set)` (running against the always-absent
`EmptyStorage`) returns exactly the root of `from_set(set)`, and
`nodes_from_set(set)` returns that same hash as its first component. -/
theorem root_from_set_matches_from_set (l : List (Bytes32 × List Nat)) :
    MerkleTree.root_from_set l = (MerkleTree.from_set l).root ∧
    (MerkleTree.nodes_from_set l).1 = MerkleTree.root_from_set l := by
  obtain ⟨s2, hs2⟩ := writeAll_mapStorage (emitNodes (buildTree l) []) []
  have h1 : MerkleTree.root_from_set l = rootHash (buildTree l) [] := by
    unfold MerkleTree.root_from_set
    rw [from_setS_eq emptyStorage () l ()
      (writeAll_emptyStorage (emitNodes (buildTree l) []) ())]
  have h2 : (MerkleTree.from_set l).root = rootHash (buildTree l) [] := by
    unfold MerkleTree.from_set MerkleTree.root
    rw [from_setS_eq mapStorage [] l s2 hs2]
  have h3 : (MerkleTree.nodes_from_set l).1 = rootHash (buildTree l) [] := by
    unfold MerkleTree.nodes_from_set
    rw [from_setS_eq vectorStorage [] l (emitNodes (buildTree l) [])
      (writeAll_vectorStorage (emitNodes (buildTree l) []) [])]
  exact ⟨h1.trans h2.symm, h3.trans h1.symm⟩

/-- C10: the bulk build behind `nodes_from_set` performs only `insert`
writes, so running it against `VectorStorage` — whose `get`,
`contains_key`, `remove` and `take` fail — succeeds on every input set and
returns the canonical root with the emitted nodes. -/
theorem nodes_from_set_total (l : List (Bytes32 × List Nat)) :
    (from_setS vectorStorage [] l).isSome = true ∧
    MerkleTree.nodes_from_set l =
      (rootHash (buildTree l) [], emitNodes (buildTree l) []) := by
  have hv := writeAll_vectorStorage (emitNodes (buildTree l) []) []
  have he := from_setS_eq vectorStorage [] l (emitNodes (buildTree l) []) hv
  constructor
  · rw [he]; rfl
  · unfold MerkleTree.nodes_from_set
    rw [he]

end FuelMerkle
